import Mathlib

/-!
Shallow embedding of the bitmap-font rasterizer and ESC/P protocol encoder of
the NodeJsReport print-dispatch service
(`src/services/bitmap-font.service.ts`, `src/services/escp.service.ts`).

Conventions of the embedding:
* JS strings iterated with `for (const ch of s)` are modelled as `List Char`
  (one element per Unicode code point, exactly what `for..of` yields).
* Byte buffers (`Buffer`) are modelled as `List Nat`, each element a byte.
* JS `number` values used in the geometry pipeline are modelled as rationals
  (`ℚ`); the source only adds, subtracts, multiplies, divides and compares
  them, so the rational model matches the float code on all inputs that do
  not overflow or round.
* Functions that `throw` are modelled with `Except String`.
* The process-global glyph cache (a JS `Map`, insertion ordered) is modelled
  by explicit state passing: `GlyphCacheState` is the insertion-ordered list
  of key/value pairs, and the cache-touching functions take and return it.
* The loaded outline font (`opentype.js` data: an external input file, not
  part of the repository) is a parameter of type `Font`.
-/

-- ══════════════════════════════════════════════════════════════════════
-- §1  CJK classification and half-width-unit text measurement
--     (escp.service.ts: textWidth / padText, bitmap-font.service.ts: isCJK)
-- ══════════════════════════════════════════════════════════════════════

/-- `isCJK` from `bitmap-font.service.ts` (the same six ranges are inlined in
`textWidth` in `escp.service.ts`): a code point is CJK-classified if it falls
in any of the six listed Unicode ranges. -/
def isCJK (code : Nat) : Bool :=
  (0x2e80 ≤ code && code ≤ 0x9fff) ||
  (0xf900 ≤ code && code ≤ 0xfaff) ||
  (0xfe30 ≤ code && code ≤ 0xfe4f) ||
  (0x20000 ≤ code && code ≤ 0x2fa1f) ||
  (0xff00 ≤ code && code ≤ 0xff60) ||
  (0xffe0 ≤ code && code ≤ 0xffe6)

/-- `textWidth` from `escp.service.ts`: display width in half-width units,
ASCII = 1, CJK = 2, summed over the code points of the string. -/
def textWidth (text : List Char) : Nat :=
  (text.map (fun c => if isCJK c.toNat then 2 else 1)).sum

/-- The three alignment modes accepted by `padText`. -/
inductive TextAlign where
  | left : TextAlign
  | right : TextAlign
  | center : TextAlign
deriving DecidableEq

/-- The truncation loop inside `padText`: walk the code points, accumulating
the width in `current`, and stop (`break`) at the first character whose cost
would push the accumulated width past `target`. -/
def truncLoop (target : Nat) : List Char → Nat → List Char
  | [], _ => []
  | c :: rest, current =>
    let cw := textWidth [c]
    if target < current + cw then []
    else c :: truncLoop target rest (current + cw)

/-- `padText` from `escp.service.ts`: pad or truncate `text` to exactly
`targetWidth` half-width units.  The source checks `w >= targetWidth` for the
truncation branch, pads the truncated remainder with spaces, and otherwise
distributes `targetWidth - w` spaces per the alignment (center puts the odd
extra space on the right). -/
def padText (text : List Char) (targetWidth : Nat) (align : TextAlign) : List Char :=
  let w := textWidth text
  if targetWidth ≤ w then
    let result := truncLoop targetWidth text 0
    result ++ List.replicate (targetWidth - textWidth result) ' '
  else
    let padding := targetWidth - w
    match align with
    | .right => List.replicate padding ' ' ++ text
    | .center =>
      let l := padding / 2
      List.replicate l ' ' ++ text ++ List.replicate (padding - l) ' '
    | .left => text ++ List.replicate padding ' '

-- ══════════════════════════════════════════════════════════════════════
-- §2  ESC/P command builders (escp.service.ts)
-- ══════════════════════════════════════════════════════════════════════

/-- Initialize printer: `ESC @`. -/
def cmdInit : List Nat := [0x1b, 0x40]

/-- Set line spacing to n/180 inch: `ESC 3 n`, n clamped to [0, 255]. -/
def cmdLineSpacing (n : Int) : List Nat := [0x1b, 0x33, (min (max n 0) 255).toNat]

/-- Set page length in lines: `ESC C n`, n clamped to [1, 127]. -/
def cmdPageLength (lines : Int) : List Nat := [0x1b, 0x43, (min (max lines 1) 127).toNat]

/-- Carriage return: `CR`. -/
def cmdCR : List Nat := [0x0d]

/-- Carriage return + line feed: `CR LF`. -/
def cmdCRLF : List Nat := [0x0d, 0x0a]

/-- Form feed: `FF`. -/
def cmdFF : List Nat := [0x0c]

/-- `cmdGraphics24` from `escp.service.ts`: 24-pin graphics command
`ESC * 39 nL nH d1...dk`.  Throws when the column-data length is not a
multiple of 3, or when the column count (length / 3) exceeds 65535; otherwise
returns the 5-byte header followed by the column data unchanged.  `& 0xff`
and `>> 8` on the column count are written `% 256` and `/ 256`. -/
def cmdGraphics24 (columnData : List Nat) : Except String (List Nat) :=
  if columnData.length % 3 ≠ 0 then
    .error ("Graphics column data must be a multiple of 3 bytes, got " ++
      toString columnData.length)
  else
    let numColumns := columnData.length / 3
    if 65535 < numColumns then
      .error ("Graphics column count " ++ toString numColumns ++ " exceeds 16-bit limit")
    else
      .ok ([0x1b, 0x2a, 39, numColumns % 256, numColumns / 256 % 256] ++ columnData)

-- ══════════════════════════════════════════════════════════════════════
-- §3  Rasterizer data model (bitmap-font.service.ts)
-- ══════════════════════════════════════════════════════════════════════

/-- `FontSize` interface: font size specification for variable-size bitmap
rendering (all three fields in pixels). -/
structure FontSize where
  charHeight : Nat
  asciiWidth : Nat
  cjkWidth : Nat
deriving DecidableEq

/-- `FONT_NORMAL`: 24px height, 12/24px widths. -/
def FONT_NORMAL : FontSize := ⟨24, 12, 24⟩

/-- `FONT_SMALL`: 20px height, 10/20px widths. -/
def FONT_SMALL : FontSize := ⟨20, 10, 20⟩

/-- `FONT_LARGE`: 48px height, 24/48px widths. -/
def FONT_LARGE : FontSize := ⟨48, 24, 48⟩

/-- `CHAR_HEIGHT`: pin height of the 24-pin print head. -/
def CHAR_HEIGHT : Nat := 24

/-- `BEZIER_STEPS`: fixed number of line segments used to flatten a Bézier. -/
def BEZIER_STEPS : Nat := 12

/-- `GlyphBitmap`: a `width × height` monochrome bitmap, row-major, one
entry per pixel (`true` = the source's byte value 1). -/
structure GlyphBitmap where
  width : Nat
  height : Nat
  data : List Bool
deriving DecidableEq

/-- An opentype.js path command (`M`/`L`/`Q`/`C`/`Z`), coordinates as
rationals. -/
inductive PathCmd where
  | M : ℚ → ℚ → PathCmd
  | L : ℚ → ℚ → PathCmd
  | Q : ℚ → ℚ → ℚ → ℚ → PathCmd
  | C : ℚ → ℚ → ℚ → ℚ → ℚ → ℚ → PathCmd
  | Z : PathCmd

/-- The loaded outline font.  The font file is an external input (read once
at startup by `getFont`), so its parsed tables are a parameter of the
embedding: `unitsPerEm`/`ascender` from the font header, `sTypoAscender`
from the OS/2 table when present, `advanceWidth c` the advance width of the
glyph the font maps `c` to, and `getPath c yBaseline fontSize` the command
list returned by `glyph.getPath(0, yBaseline, fontSize)`. -/
structure Font where
  unitsPerEm : ℚ
  ascender : ℚ
  sTypoAscender : Option ℚ
  advanceWidth : Char → ℚ
  getPath : Char → ℚ → ℚ → List PathCmd

-- ══════════════════════════════════════════════════════════════════════
-- §4  Outline flattening and scanline rasterization
-- ══════════════════════════════════════════════════════════════════════

/-- `flattenQuadratic`: sample a quadratic Bézier at `t = i/BEZIER_STEPS`
for `i = 1..BEZIER_STEPS`, producing the appended line-segment endpoints. -/
def flattenQuadratic (x0 y0 cx cy x1 y1 : ℚ) : List (ℚ × ℚ) :=
  (List.range BEZIER_STEPS).map (fun i =>
    let t : ℚ := (i + 1 : Nat) / (BEZIER_STEPS : ℚ)
    let mt : ℚ := 1 - t
    (mt * mt * x0 + 2 * mt * t * cx + t * t * x1,
     mt * mt * y0 + 2 * mt * t * cy + t * t * y1))

/-- `flattenCubic`: sample a cubic Bézier at `t = i/BEZIER_STEPS` for
`i = 1..BEZIER_STEPS`. -/
def flattenCubic (x0 y0 cx1 cy1 cx2 cy2 x1 y1 : ℚ) : List (ℚ × ℚ) :=
  (List.range BEZIER_STEPS).map (fun i =>
    let t : ℚ := (i + 1 : Nat) / (BEZIER_STEPS : ℚ)
    let mt : ℚ := 1 - t
    (mt * mt * mt * x0 + 3 * mt * mt * t * cx1 + 3 * mt * t * t * cx2 + t * t * t * x1,
     mt * mt * mt * y0 + 3 * mt * mt * t * cy1 + 3 * mt * t * t * cy2 + t * t * t * y1))

/-- The fold inside `pathToPolygons`: walk the command list carrying the
list of finished polygons, the polygon under construction and the current
position `(cx, cy)`.  `M` pushes any non-empty current polygon and starts a
new one, `L`/`Q`/`C` extend the current polygon, `Z` pushes and clears it,
and a still-open polygon at end of path is pushed implicitly. -/
def pathLoop : List PathCmd → List (List (ℚ × ℚ)) → List (ℚ × ℚ) → ℚ → ℚ →
    List (List (ℚ × ℚ))
  | [], polys, current, _, _ =>
    if current.isEmpty then polys else polys ++ [current]
  | cmd :: rest, polys, current, cx, cy =>
    match cmd with
    | .M x y =>
      pathLoop rest (if current.isEmpty then polys else polys ++ [current]) [(x, y)] x y
    | .L x y => pathLoop rest polys (current ++ [(x, y)]) x y
    | .Q x1 y1 x y =>
      pathLoop rest polys (current ++ flattenQuadratic cx cy x1 y1 x y) x y
    | .C x1 y1 x2 y2 x y =>
      pathLoop rest polys (current ++ flattenCubic cx cy x1 y1 x2 y2 x y) x y
    | .Z =>
      if current.isEmpty then pathLoop rest polys [] cx cy
      else pathLoop rest (polys ++ [current]) [] cx cy

/-- `pathToPolygons`: convert opentype.js path commands into closed
polygons (lists of vertices); starts at position `(0, 0)`. -/
def pathToPolygons (commands : List PathCmd) : List (List (ℚ × ℚ)) :=
  pathLoop commands [] [] 0 0

/-- A directed edge of the edge list built by `scanlineFill`: endpoints and
winding direction (+1 descending in y, −1 ascending). -/
structure REdge where
  x0 : ℚ
  y0 : ℚ
  x1 : ℚ
  y1 : ℚ
  dir : Int

/-- The edge list of one polygon: every vertex is joined to its cyclic
successor; near-horizontal edges (|Δy| < 0.001) are discarded. -/
def polygonEdges (poly : List (ℚ × ℚ)) : List REdge :=
  (poly.zip (poly.drop 1 ++ poly.take 1)).filterMap (fun pq =>
    if |pq.1.2 - pq.2.2| < 1 / 1000 then none
    else some ⟨pq.1.1, pq.1.2, pq.2.1, pq.2.2, if pq.1.2 < pq.2.2 then 1 else -1⟩)

/-- The x-crossings of the scanline `y = scanY` with the edge list, each
paired with its winding direction, in edge-list order. -/
def scanCrossings (edges : List REdge) (scanY : ℚ) : List (ℚ × Int) :=
  edges.filterMap (fun e =>
    if (e.y0 ≤ scanY ∧ scanY < e.y1) ∨ (e.y1 ≤ scanY ∧ scanY < e.y0) then
      some (e.x0 + (scanY - e.y0) / (e.y1 - e.y0) * (e.x1 - e.x0), e.dir)
    else none)

/-- Stable insertion of a crossing into a list sorted by ascending x
(models the stable `Array.prototype.sort` by `a.x - b.x`). -/
def insertByX (c : ℚ × Int) : List (ℚ × Int) → List (ℚ × Int)
  | [] => [c]
  | d :: rest => if c.1 < d.1 then c :: d :: rest else d :: insertByX c rest

/-- Stable sort of the crossings by ascending x. -/
def sortByX (l : List (ℚ × Int)) : List (ℚ × Int) :=
  l.foldr insertByX []

/-- The filled spans of one supersampled scanline: walk the sorted
crossings accumulating the running winding sum; between a crossing and the
next, when the running sum is non-zero, fill from `max 0 ⌈x⌉` to
`min (ssW - 1) ⌊x'⌋` (non-zero winding rule). -/
def rowSpans (ssW : Nat) (wind : Int) : List (ℚ × Int) → List (Int × Int)
  | [] => []
  | c :: rest =>
    let w := wind + c.2
    let tailSpans := rowSpans ssW w rest
    match rest with
    | [] => tailSpans
    | c2 :: _ =>
      if w ≠ 0 then (max 0 ⌈c.1⌉, min ((ssW : Int) - 1) ⌊c2.1⌋) :: tailSpans
      else tailSpans

/-- Whether the supersampled pixel `(x, y)` is set: the scanline through its
center `y + 0.5` fills it via some span. -/
def ssPixel (edges : List REdge) (ssW : Nat) (x y : Nat) : Bool :=
  let spans := rowSpans ssW 0 (sortByX (scanCrossings edges ((y : ℚ) + 1 / 2)))
  spans.any (fun sp => decide (sp.1 ≤ (x : Int)) && decide ((x : Int) ≤ sp.2))

/-- `scanlineFill`: rasterize the polygons into a `width × height` row-major
bitmap using the non-zero winding rule at supersample resolution, then
downsample each `ss × ss` block with an OR reduction. -/
def scanlineFill (polygons : List (List (ℚ × ℚ))) (width height supersample : Nat) :
    List Bool :=
  let ss := supersample
  let ssW := width * ss
  let ssPolygons := polygons.map (fun poly =>
    poly.map (fun p => (p.1 * (ss : ℚ), p.2 * (ss : ℚ))))
  let edges := ssPolygons.flatMap polygonEdges
  (List.range (width * height)).map (fun idx =>
    let y := idx / width
    let x := idx % width
    (List.range ss).any (fun sy =>
      (List.range ss).any (fun sx => ssPixel edges ssW (x * ss + sx) (y * ss + sy))))

-- ══════════════════════════════════════════════════════════════════════
-- §5  Glyph cache and renderChar (bitmap-font.service.ts)
-- ══════════════════════════════════════════════════════════════════════

/-- `MAX_CACHE_SIZE`: capacity of the glyph cache. -/
def MAX_CACHE_SIZE : Nat := 4096

/-- The glyph cache: a JS `Map` in insertion order, modelled as the ordered
list of key/value pairs (keys are unique, oldest first). -/
abbrev GlyphCacheState : Type := List (String × GlyphBitmap)

/-- `Map.get`: the value of the first (only) entry with the given key. -/
def mapGet (k : String) : GlyphCacheState → Option GlyphBitmap
  | [] => none
  | e :: rest => if e.1 = k then some e.2 else mapGet k rest

/-- `Map.set`: replace in place when the key is present (a JS `Map` keeps
the original insertion position on update), otherwise append. -/
def mapSet (k : String) (v : GlyphBitmap) : GlyphCacheState → GlyphCacheState
  | [] => [(k, v)]
  | e :: rest => if e.1 = k then (k, v) :: rest else e :: mapSet k v rest

/-- The cache key `` `${char}:${charHeight}:${asciiWidth}:${cjkWidth}` ``
built by `renderChar` (written here directly as the character list of that
template string). -/
def cacheKey (c : Char) (p : FontSize) : String :=
  String.mk (c :: ':' :: (Nat.repr p.charHeight).data ++
    ':' :: (Nat.repr p.asciiWidth).data ++ ':' :: (Nat.repr p.cjkWidth).data)

/-- `cacheGlyph`: when the cache has reached `MAX_CACHE_SIZE`, delete the
entry of `keys().next().value` — the oldest-inserted key, i.e. the head of
the insertion-ordered list — then `set` the new entry. -/
def cacheGlyph (key : String) (bitmap : GlyphBitmap) (s : GlyphCacheState) :
    GlyphCacheState :=
  let s1 := if MAX_CACHE_SIZE ≤ s.length then
      match s with
      | [] => []
      | _ :: rest => rest
    else s
  mapSet key bitmap s1

/-- `clearGlyphCache`: `glyphCache.clear()`. -/
def clearGlyphCache (_ : GlyphCacheState) : GlyphCacheState := []

/-- The cache-miss computation of `renderChar` (everything after the cache
lookup, before `cacheGlyph`): space/control characters (`char === ' '` or
code ≤ 0x20) get an all-zero `asciiWidth × charHeight` bitmap without
touching the font; for every other character the glyph outline is fetched at
baseline `effectiveAscender * scale`, flattened to polygons, horizontally
compressed to the cell (never stretched: `scaleX ≤ 1`, narrower glyphs are
centered via `offsetX`), and rasterized by `scanlineFill`. -/
def renderCharFresh (font : Font) (c : Char) (p : FontSize) : GlyphBitmap :=
  let code := c.toNat
  let targetWidth := if isCJK code then p.cjkWidth else p.asciiWidth
  if c = ' ' ∨ code ≤ 0x20 then
    ⟨p.asciiWidth, p.charHeight, List.replicate (p.asciiWidth * p.charHeight) false⟩
  else
    let scale : ℚ := (p.charHeight : ℚ) / font.unitsPerEm
    let otFontSize : ℚ := (p.charHeight : ℚ)
    let effectiveAscender := font.sTypoAscender.getD font.ascender
    let ascenderPx := effectiveAscender * scale
    let polygons := pathToPolygons (font.getPath c ascenderPx otFontSize)
    let advanceWidthPx := font.advanceWidth c * scale
    let sxo : ℚ × ℚ :=
      if 0 < advanceWidthPx then
        let s0 := (targetWidth : ℚ) / advanceWidthPx
        if 1 < s0 then (1, (⌊((targetWidth : ℚ) - advanceWidthPx) / 2⌋ : ℤ))
        else (s0, 0)
      else (1, 0)
    let scaledPolygons := polygons.map (fun poly =>
      poly.map (fun pt => (pt.1 * sxo.1 + sxo.2, pt.2)))
    ⟨targetWidth, p.charHeight, scanlineFill scaledPolygons targetWidth p.charHeight 3⟩

/-- `renderChar`: look the key up in the cache and return the hit, else
compute the bitmap and insert it with `cacheGlyph`.  Returns the bitmap and
the updated cache. -/
def renderChar (font : Font) (c : Char) (p : FontSize) (s : GlyphCacheState) :
    GlyphBitmap × GlyphCacheState :=
  let key := cacheKey c p
  match mapGet key s with
  | some cached => (cached, s)
  | none =>
    let result := renderCharFresh font c p
    (result, cacheGlyph key result s)

-- ══════════════════════════════════════════════════════════════════════
-- §6  renderLine (bitmap-font.service.ts)
-- ══════════════════════════════════════════════════════════════════════

/-- `RenderedLine`: total dot width, the first band's column data, the band
count and the per-band column buffers. -/
structure RenderedLine where
  width : Nat
  columns : List Nat
  bandCount : Nat
  bands : List (List Nat)

/-- Whether the bitmap pixel at row `row`, column `x` is set (the source
reads `bmp.data[row * bmp.width + x]` guarded by `row < bmp.height`). -/
def pixelAt (bmp : GlyphBitmap) (x row : Nat) : Bool :=
  decide (row < bmp.height) && (bmp.data.getD (row * bmp.width + x) false)

/-- One byte of one column of one band: pin `8*j + k` (k = 0..7) of column
`x` contributes bit `7 - k`, taken from bitmap row `bandTop + 8*j + k`. -/
def colByte (bmp : GlyphBitmap) (bandTop x j : Nat) : Nat :=
  (List.range 8).foldl
    (fun acc k => if pixelAt bmp x (bandTop + (8 * j + k)) then acc ||| (1 <<< (7 - k)) else acc)
    0

/-- The 3-bytes-per-column band data one glyph contributes to the band
starting at row `bandTop` (the imperative fill writes byte `pin / 8` of
column `colOffset + x`; consecutive glyphs occupy consecutive columns). -/
def glyphBandBytes (bmp : GlyphBitmap) (bandTop : Nat) : List Nat :=
  (List.range bmp.width).flatMap (fun x =>
    [colByte bmp bandTop x 0, colByte bmp bandTop x 1, colByte bmp bandTop x 2])

/-- The character-by-character rendering loop of `renderLine`: render each
code point in order, threading the glyph cache. -/
def renderChars (font : Font) (p : FontSize) :
    List Char → GlyphCacheState → List GlyphBitmap × GlyphCacheState
  | [], s => ([], s)
  | c :: rest, s =>
    let r := renderChar font c p s
    let rs := renderChars font p rest r.2
    (r.1 :: rs.1, rs.2)

/-- `renderLine`: rasterize every character of the line at the profile,
concatenate the glyph bitmaps left to right and pack them into
`⌈charHeight / 24⌉` bands of 3-byte columns.  The empty string returns
`{width 0, columns empty, bandCount 1, bands [empty]}`. -/
def renderLine (font : Font) (text : List Char) (p : FontSize) (s : GlyphCacheState) :
    RenderedLine × GlyphCacheState :=
  if text.isEmpty then (⟨0, [], 1, [[]]⟩, s)
  else
    let r := renderChars font p text s
    let totalWidth := (r.1.map GlyphBitmap.width).sum
    let bandCount := (p.charHeight + CHAR_HEIGHT - 1) / CHAR_HEIGHT
    let bands := (List.range bandCount).map (fun band =>
      r.1.flatMap (fun bmp => glyphBandBytes bmp (band * CHAR_HEIGHT)))
    (⟨totalWidth, bands.getD 0 [], bandCount, bands⟩, r.2)

-- ══════════════════════════════════════════════════════════════════════
-- §7  buildEscpFromBitmapLines (escp.service.ts)
-- ══════════════════════════════════════════════════════════════════════

/-- `LineEntry`: a plain string (implying `FONT_NORMAL`) or a text with an
explicit font-size profile. -/
inductive LineEntry where
  | plain : List Char → LineEntry
  | withFont : List Char → FontSize → LineEntry

/-- The text of a line entry. -/
def LineEntry.text : LineEntry → List Char
  | .plain t => t
  | .withFont t _ => t

/-- The font-size profile of a line entry (`FONT_NORMAL` for plain strings). -/
def LineEntry.fontSize : LineEntry → FontSize
  | .plain _ => FONT_NORMAL
  | .withFont _ p => p

/-- The JS `String.prototype.trim` whitespace set (WhiteSpace and
LineTerminator code points). -/
def isJsWhitespace (c : Char) : Bool :=
  let n := c.toNat
  n = 0x09 || n = 0x0a || n = 0x0b || n = 0x0c || n = 0x0d || n = 0x20 ||
  n = 0xa0 || n = 0x1680 || (0x2000 ≤ n && n ≤ 0x200a) || n = 0x2028 ||
  n = 0x2029 || n = 0x202f || n = 0x205f || n = 0x3000 || n = 0xfeff

/-- The blank-line test `!lineText || lineText.trim().length === 0`: true
exactly when every code point is JS whitespace (vacuously for the empty
string). -/
def lineBlank (text : List Char) : Bool :=
  text.all isJsWhitespace

/-- Options of `buildEscpFromBitmapLines` (source defaults:
`formFeed = true`, `initPrinter = true`, `pageLines = 0`). -/
structure BitmapBuildOptions where
  lines : List LineEntry
  formFeed : Bool
  initPrinter : Bool
  pageLines : Int

/-- The per-band emission loop of `buildEscpFromBitmapLines`: for each band
push `CR`, then the graphics command, then `CR LF`; a failing
`cmdGraphics24` aborts the build (the thrown error propagates). -/
def lineBands : List (List Nat) → Except String (List Nat)
  | [] => .ok []
  | b :: rest =>
    match cmdGraphics24 b with
    | .error e => .error e
    | .ok g =>
      match lineBands rest with
      | .error e => .error e
      | .ok r => .ok (cmdCR ++ g ++ cmdCRLF ++ r)

/-- The per-line loop of `buildEscpFromBitmapLines`: blank lines emit a bare
`CR LF`; other lines are rendered, then each band is emitted (or, when the
rendered width is 0, a bare `CR LF`), threading the glyph cache. -/
def buildBody (font : Font) : List LineEntry → GlyphCacheState → Except String (List Nat)
  | [], _ => .ok []
  | entry :: rest, s =>
    if lineBlank entry.text then
      match buildBody font rest s with
      | .error e => .error e
      | .ok r => .ok (cmdCRLF ++ r)
    else
      let rendered := renderLine font entry.text entry.fontSize s
      if 0 < rendered.1.width then
        match lineBands rendered.1.bands with
        | .error e => .error e
        | .ok g =>
          match buildBody font rest rendered.2 with
          | .error e => .error e
          | .ok r => .ok (g ++ r)
      else
        match buildBody font rest rendered.2 with
        | .error e => .error e
        | .ok r => .ok (cmdCRLF ++ r)

/-- `buildEscpFromBitmapLines`: optional Initialize, unconditional line
spacing 24/180", page length iff `pageLines > 0`, then the per-line body,
then the optional Form Feed. -/
def buildEscpFromBitmapLines (font : Font) (opts : BitmapBuildOptions)
    (s : GlyphCacheState) : Except String (List Nat) :=
  match buildBody font opts.lines s with
  | .error e => .error e
  | .ok body =>
    .ok ((if opts.initPrinter then cmdInit else []) ++
      cmdLineSpacing 24 ++
      (if 0 < opts.pageLines then cmdPageLength opts.pageLines else []) ++
      body ++
      (if opts.formFeed then cmdFF else []))

-- ══════════════════════════════════════════════════════════════════════
-- §8  Auxiliary definitions for the verification
-- ══════════════════════════════════════════════════════════════════════

/-- The graphics bytes `cmdGraphics24` returns on success for band data `b`
(5-byte header `ESC * 39 nL nH` with the little-endian column count,
followed by the data). -/
def graphicsBytes (b : List Nat) : List Nat :=
  [0x1b, 0x2a, 39, b.length / 3 % 256, b.length / 3 / 256 % 256] ++ b

/-- One externally observable operation on the glyph cache: a `renderChar`
call or a `clearGlyphCache` call. -/
inductive CacheOp where
  | render : Char → FontSize → CacheOp
  | clear : CacheOp

/-- The cache state after one operation. -/
def applyOp (font : Font) (s : GlyphCacheState) : CacheOp → GlyphCacheState
  | .render c p => (renderChar font c p s).2
  | .clear => clearGlyphCache s

/-- The cache state after a sequence of operations. -/
def runOps (font : Font) (ops : List CacheOp) (s : GlyphCacheState) : GlyphCacheState :=
  ops.foldl (applyOp font) s

/-- The cache state after rendering a list of (character, profile) pairs in
order. -/
def renderAll (font : Font) (ps : List (Char × FontSize)) (s : GlyphCacheState) :
    GlyphCacheState :=
  ps.foldl (fun st q => (renderChar font q.1 q.2 st).2) s

/-- A cache state the program can actually be in: the result of some
sequence of `renderChar` / `clearGlyphCache` calls starting from the empty
cache the module initializes. -/
def Reachable (font : Font) (s : GlyphCacheState) : Prop :=
  ∃ ops, runOps font ops [] = s

/-- The invariant of the glyph cache: every stored entry is the cache key of
some (character, profile) pair together with the bitmap `renderChar` would
freshly compute for it. -/
def ValidState (font : Font) (s : GlyphCacheState) : Prop :=
  ∀ e ∈ s, ∃ c p, e.1 = cacheKey c p ∧ e.2 = renderCharFresh font c p

/-- The list of keys held by a cache state, oldest first. -/
def cacheKeys (s : GlyphCacheState) : List String :=
  s.map Prod.fst

/-- The cache entry a miss on (character, profile) inserts: its cache key
paired with the freshly computed bitmap. -/
def freshEntry (font : Font) (q : Char × FontSize) : String × GlyphBitmap :=
  (cacheKey q.1 q.2, renderCharFresh font q.1 q.2)

/-- A concrete loaded font used to instantiate theorems: 1000 units per em,
ascender 800, no OS/2 table, every glyph 600 units wide with an empty
outline. -/
def trivialFont : Font :=
  ⟨1000, 800, none, fun _ => 600, fun _ _ _ => []⟩

/-- 4096 further distinct (character, profile) pairs (CJK code points
U+4E01.. at `FONT_NORMAL`) used to drive the cache past its capacity. -/
def fifoRest : List (Char × FontSize) :=
  (List.range MAX_CACHE_SIZE).map (fun i => (Char.ofNat (0x4e00 + (i + 1)), FONT_NORMAL))

/-- Most-significant-digit-first decimal digit list of a natural number;
`Nat.repr n` produces exactly these characters (proven below), which
justifies reasoning about the string cache keys. -/
def digitsList (n : Nat) : List Char :=
  if h : n / 10 = 0 then [Nat.digitChar (n % 10)]
  else digitsList (n / 10) ++ [Nat.digitChar (n % 10)]
decreasing_by exact Nat.div_lt_self (Nat.pos_of_ne_zero (fun hz => h (by simp [hz]))) (by omega)

/-- Decimal value of a digit character ('0'..'9'; 0 otherwise). -/
def digitVal (c : Char) : Nat :=
  if c = '0' then 0 else if c = '1' then 1 else if c = '2' then 2 else
  if c = '3' then 3 else if c = '4' then 4 else if c = '5' then 5 else
  if c = '6' then 6 else if c = '7' then 7 else if c = '8' then 8 else
  if c = '9' then 9 else 0

/-- Read a most-significant-digit-first digit list back into a number. -/
def readDigits (l : List Char) : Nat :=
  l.foldl (fun a c => 10 * a + digitVal c) 0

/-- Decidable equality of build results (used only to evaluate concrete
byte-level statements). -/
instance : DecidableEq (Except String (List Nat)) := fun a b =>
  match a, b with
  | .ok x, .ok y =>
    if h : x = y then .isTrue (by rw [h]) else .isFalse (by simp [h])
  | .error e, .error f =>
    if h : e = f then .isTrue (by rw [h]) else .isFalse (by simp [h])
  | .ok _, .error _ => .isFalse (by simp)
  | .error _, .ok _ => .isFalse (by simp)

-- ══════════════════════════════════════════════════════════════════════
-- §9  Cache-key strings: decimal digits contain no colon, `Nat.repr` is
--     injective, hence `cacheKey` is injective
-- ══════════════════════════════════════════════════════════════════════

theorem digitChar_ne_colon (n : Nat) : Nat.digitChar n ≠ ':' := by
  by_cases h : n < 16
  · interval_cases n <;> decide
  · rw [Nat.digitChar]
    rw [if_neg (by omega : ¬(n = 0)), if_neg (by omega : ¬(n = 1)),
      if_neg (by omega : ¬(n = 2)), if_neg (by omega : ¬(n = 3)),
      if_neg (by omega : ¬(n = 4)), if_neg (by omega : ¬(n = 5)),
      if_neg (by omega : ¬(n = 6)), if_neg (by omega : ¬(n = 7)),
      if_neg (by omega : ¬(n = 8)), if_neg (by omega : ¬(n = 9)),
      if_neg (by omega : ¬(n = 10)), if_neg (by omega : ¬(n = 11)),
      if_neg (by omega : ¬(n = 12)), if_neg (by omega : ¬(n = 13)),
      if_neg (by omega : ¬(n = 14)), if_neg (by omega : ¬(n = 15))]
    decide

theorem toDigitsCore_eq (fuel : Nat) :
    ∀ n acc, n < fuel → Nat.toDigitsCore 10 fuel n acc = digitsList n ++ acc := by
  induction fuel with
  | zero => intro n acc h; omega
  | succ f ih =>
    intro n acc h
    rw [Nat.toDigitsCore, digitsList]
    by_cases h10 : n / 10 = 0
    · simp [h10]
    · have hlt : n / 10 < f := by
        have h1 : n / 10 < n := Nat.div_lt_self (by omega) (by omega)
        omega
      simp only [h10, if_false, dif_neg h10]
      rw [ih (n / 10) (Nat.digitChar (n % 10) :: acc) hlt]
      simp

theorem repr_data (n : Nat) : (Nat.repr n).data = digitsList n := by
  show (Nat.toDigits 10 n).asString.data = digitsList n
  rw [Nat.toDigits, toDigitsCore_eq (n + 1) n [] (by omega)]
  simp [List.asString]

theorem colon_not_mem_digitsList (n : Nat) : ':' ∉ digitsList n := by
  induction n using Nat.strong_induction_on with
  | _ n ih =>
    rw [digitsList]
    by_cases h10 : n / 10 = 0
    · rw [dif_pos h10]
      simp only [List.mem_singleton]
      intro hcontra; exact digitChar_ne_colon _ hcontra.symm
    · have h1 : n / 10 < n := Nat.div_lt_self (by omega) (by omega)
      rw [dif_neg h10]
      simp only [List.mem_append, List.mem_singleton, not_or]
      refine ⟨ih (n / 10) h1, ?_⟩
      intro hcontra; exact digitChar_ne_colon _ hcontra.symm

theorem digitVal_digitChar (d : Nat) (h : d < 10) :
    digitVal (Nat.digitChar d) = d := by
  interval_cases d <;> rfl

theorem readDigits_digitsList (n : Nat) : readDigits (digitsList n) = n := by
  induction n using Nat.strong_induction_on with
  | _ n ih =>
    rw [digitsList]
    by_cases h10 : n / 10 = 0
    · rw [dif_pos h10]
      show 10 * 0 + digitVal (Nat.digitChar (n % 10)) = n
      rw [digitVal_digitChar (n % 10) (Nat.mod_lt _ (by omega))]
      omega
    · have h1 : n / 10 < n := Nat.div_lt_self (by omega) (by omega)
      rw [dif_neg h10]
      show (digitsList (n / 10) ++ [Nat.digitChar (n % 10)]).foldl _ 0 = n
      rw [List.foldl_append]
      show 10 * readDigits (digitsList (n / 10)) + digitVal (Nat.digitChar (n % 10)) = n
      rw [ih (n / 10) h1, digitVal_digitChar (n % 10) (Nat.mod_lt _ (by omega))]
      omega

theorem natRepr_data_inj {m n : Nat} (h : (Nat.repr m).data = (Nat.repr n).data) :
    m = n := by
  have hd : digitsList m = digitsList n := by
    rw [← repr_data, ← repr_data, h]
  rw [← readDigits_digitsList m, ← readDigits_digitsList n, hd]

theorem colon_not_mem_repr (n : Nat) : ':' ∉ (Nat.repr n).data := by
  rw [repr_data]; exact colon_not_mem_digitsList n

theorem colon_split : ∀ {l₁ : List Char} {l₂ r₁ r₂ : List Char}, ':' ∉ l₁ → ':' ∉ l₂ →
    l₁ ++ ':' :: r₁ = l₂ ++ ':' :: r₂ → l₁ = l₂ ∧ r₁ = r₂ := by
  intro l₁
  induction l₁ with
  | nil =>
    intro l₂ r₁ r₂ h₁ h₂ h
    cases l₂ with
    | nil => simpa using h
    | cons d l₂' =>
      rw [List.nil_append, List.cons_append] at h
      have hd : ':' = d := (List.cons.injEq _ _ _ _ ▸ h).1
      exact absurd (by rw [hd]; exact List.mem_cons_self d l₂') h₂
  | cons c l₁' ih =>
    intro l₂ r₁ r₂ h₁ h₂ h
    cases l₂ with
    | nil =>
      rw [List.nil_append, List.cons_append] at h
      have hd : c = ':' := (List.cons.injEq _ _ _ _ ▸ h).1
      exact absurd (by rw [← hd]; exact List.mem_cons_self c l₁') h₁
    | cons d l₂' =>
      rw [List.cons_append, List.cons_append] at h
      obtain ⟨rfl, h'⟩ := List.cons.injEq _ _ _ _ ▸ h
      have hh := ih (fun hm => h₁ (List.mem_cons_of_mem _ hm))
        (fun hm => h₂ (List.mem_cons_of_mem _ hm)) h'
      exact ⟨by rw [hh.1], hh.2⟩

theorem cacheKey_inj {c₁ c₂ : Char} {p₁ p₂ : FontSize}
    (h : cacheKey c₁ p₁ = cacheKey c₂ p₂) : c₁ = c₂ ∧ p₁ = p₂ := by
  unfold cacheKey at h
  replace h := congrArg String.data h
  simp only [List.cons_append, List.append_assoc, List.cons.injEq, true_and] at h
  obtain ⟨rfl, h⟩ := h
  obtain ⟨hH, h⟩ := colon_split (colon_not_mem_repr _) (colon_not_mem_repr _) h
  obtain ⟨hA, hW⟩ := colon_split (colon_not_mem_repr _) (colon_not_mem_repr _) h
  refine ⟨rfl, ?_⟩
  cases p₁; cases p₂
  simp only [FontSize.mk.injEq]
  exact ⟨natRepr_data_inj hH, natRepr_data_inj hA, natRepr_data_inj hW⟩

-- ══════════════════════════════════════════════════════════════════════
-- §10  Cache map lemmas, validity and reachability
-- ══════════════════════════════════════════════════════════════════════

theorem mapGet_eq_none {k : String} {s : GlyphCacheState} (h : k ∉ cacheKeys s) :
    mapGet k s = none := by
  induction s with
  | nil => rfl
  | cons e rest ih =>
    simp only [cacheKeys, List.map_cons, List.mem_cons, not_or] at h
    rw [mapGet, if_neg (fun he => h.1 he.symm)]
    exact ih (by simpa [cacheKeys] using h.2)

theorem mapGet_some_mem {k : String} {s : GlyphCacheState} {b : GlyphBitmap}
    (h : mapGet k s = some b) : (k, b) ∈ s := by
  induction s with
  | nil => simp [mapGet] at h
  | cons e rest ih =>
    rw [mapGet] at h
    by_cases he : e.1 = k
    · rw [if_pos he] at h
      injection h with hb
      exact List.mem_cons.mpr (Or.inl (by rw [← he, ← hb]))
    · rw [if_neg he] at h
      exact List.mem_cons_of_mem _ (ih h)

theorem mapSet_not_mem {k : String} (v : GlyphBitmap) {s : GlyphCacheState}
    (h : k ∉ cacheKeys s) : mapSet k v s = s ++ [(k, v)] := by
  induction s with
  | nil => rfl
  | cons e rest ih =>
    simp only [cacheKeys, List.map_cons, List.mem_cons, not_or] at h
    rw [mapSet, if_neg (fun he => h.1 he.symm), List.cons_append]
    rw [ih (by simpa [cacheKeys] using h.2)]

theorem mem_mapSet {k : String} {v : GlyphBitmap} {s : GlyphCacheState}
    {e : String × GlyphBitmap} (h : e ∈ mapSet k v s) : e = (k, v) ∨ e ∈ s := by
  induction s with
  | nil => simpa [mapSet] using h
  | cons e0 rest ih =>
    rw [mapSet] at h
    by_cases he : e0.1 = k
    · rw [if_pos he] at h
      rcases List.mem_cons.mp h with h1 | h1
      · exact Or.inl h1
      · exact Or.inr (List.mem_cons_of_mem _ h1)
    · rw [if_neg he] at h
      rcases List.mem_cons.mp h with h1 | h1
      · exact Or.inr (h1 ▸ List.mem_cons_self _ _)
      · rcases ih h1 with h2 | h2
        · exact Or.inl h2
        · exact Or.inr (List.mem_cons_of_mem _ h2)

theorem length_mapSet_le (k : String) (v : GlyphBitmap) (s : GlyphCacheState) :
    (mapSet k v s).length ≤ s.length + 1 := by
  induction s with
  | nil => simp [mapSet]
  | cons e rest ih =>
    rw [mapSet]
    by_cases he : e.1 = k
    · rw [if_pos he]; simp
    · rw [if_neg he]
      simpa using Nat.succ_le_succ ih

theorem validState_nil (font : Font) : ValidState font [] := by
  intro e he; cases he

theorem renderChar_fst {font : Font} {s : GlyphCacheState} (h : ValidState font s)
    (c : Char) (p : FontSize) :
    (renderChar font c p s).1 = renderCharFresh font c p := by
  rw [renderChar]
  cases hget : mapGet (cacheKey c p) s with
  | none => rfl
  | some b =>
    obtain ⟨c', p', hk, hb⟩ := h _ (mapGet_some_mem hget)
    obtain ⟨rfl, rfl⟩ := cacheKey_inj hk
    simpa using hb

theorem validState_renderChar {font : Font} {s : GlyphCacheState}
    (h : ValidState font s) (c : Char) (p : FontSize) :
    ValidState font (renderChar font c p s).2 := by
  rw [renderChar]
  cases hget : mapGet (cacheKey c p) s with
  | some b => exact h
  | none =>
    intro e he
    simp only [cacheGlyph] at he
    rcases mem_mapSet he with h1 | h1
    · exact ⟨c, p, by rw [h1], by rw [h1]⟩
    · apply h
      rcases hlen : decide (MAX_CACHE_SIZE ≤ s.length) with _ | _
      · simpa [of_decide_eq_false hlen] using h1
      · have := of_decide_eq_true hlen
        rw [if_pos this] at h1
        cases s with
        | nil => cases h1
        | cons e0 rest => exact List.mem_cons_of_mem _ h1

theorem validState_applyOp {font : Font} {s : GlyphCacheState}
    (h : ValidState font s) (op : CacheOp) : ValidState font (applyOp font s op) := by
  cases op with
  | render c p => exact validState_renderChar h c p
  | clear => exact validState_nil font

theorem validState_runOps (font : Font) (ops : List CacheOp) :
    ∀ s, ValidState font s → ValidState font (runOps font ops s) := by
  induction ops with
  | nil => intro s h; exact h
  | cons op rest ih =>
    intro s h
    exact ih _ (validState_applyOp h op)

theorem reachable_valid {font : Font} {s : GlyphCacheState} (h : Reachable font s) :
    ValidState font s := by
  obtain ⟨ops, rfl⟩ := h
  exact validState_runOps font ops [] (validState_nil font)

-- ══════════════════════════════════════════════════════════════════════
-- §11  Cache size bound and FIFO eviction structure
-- ══════════════════════════════════════════════════════════════════════

theorem applyOp_length {font : Font} {s : GlyphCacheState}
    (h : s.length ≤ MAX_CACHE_SIZE) (op : CacheOp) :
    (applyOp font s op).length ≤ MAX_CACHE_SIZE := by
  cases op with
  | clear => simp [applyOp, clearGlyphCache]
  | render c p =>
    show (renderChar font c p s).2.length ≤ MAX_CACHE_SIZE
    rw [renderChar]
    cases hget : mapGet (cacheKey c p) s with
    | some b => exact h
    | none =>
      simp only [cacheGlyph]
      by_cases hfull : MAX_CACHE_SIZE ≤ s.length
      · rw [if_pos hfull]
        cases s with
        | nil => simp [mapSet, MAX_CACHE_SIZE]
        | cons e rest =>
          calc (mapSet (cacheKey c p) (renderCharFresh font c p) rest).length
              ≤ rest.length + 1 := length_mapSet_le _ _ _
            _ ≤ MAX_CACHE_SIZE := by simp at h; omega
      · rw [if_neg hfull]
        calc (mapSet (cacheKey c p) (renderCharFresh font c p) s).length
            ≤ s.length + 1 := length_mapSet_le _ _ _
          _ ≤ MAX_CACHE_SIZE := by omega

theorem runOps_length (font : Font) (ops : List CacheOp) :
    ∀ s : GlyphCacheState, s.length ≤ MAX_CACHE_SIZE →
      (runOps font ops s).length ≤ MAX_CACHE_SIZE := by
  induction ops with
  | nil => intro s h; exact h
  | cons op rest ih => intro s h; exact ih _ (applyOp_length h op)

theorem renderChar_snd_miss {font : Font} {c : Char} {p : FontSize}
    {s : GlyphCacheState} (hk : cacheKey c p ∉ cacheKeys s)
    (hlen : s.length < MAX_CACHE_SIZE) :
    (renderChar font c p s).2 = s ++ [freshEntry font (c, p)] := by
  rw [renderChar, mapGet_eq_none hk]
  simp only [cacheGlyph, if_neg (by omega : ¬ MAX_CACHE_SIZE ≤ s.length)]
  exact mapSet_not_mem _ hk

theorem renderChar_snd_full {font : Font} {c : Char} {p : FontSize}
    {s : GlyphCacheState} (hk : cacheKey c p ∉ cacheKeys s)
    (hlen : MAX_CACHE_SIZE ≤ s.length) :
    (renderChar font c p s).2 = s.tail ++ [freshEntry font (c, p)] := by
  rw [renderChar, mapGet_eq_none hk]
  simp only [cacheGlyph, if_pos hlen]
  cases s with
  | nil => simp [MAX_CACHE_SIZE] at hlen
  | cons e rest =>
    show mapSet (cacheKey c p) _ rest = _
    have hk' : cacheKey c p ∉ cacheKeys rest := by
      simp only [cacheKeys, List.map_cons, List.mem_cons, not_or] at hk
      exact hk.2
    simpa using mapSet_not_mem _ hk'

theorem renderAll_cons (font : Font) (q : Char × FontSize) (ps : List (Char × FontSize))
    (s : GlyphCacheState) :
    renderAll font (q :: ps) s = renderAll font ps (renderChar font q.1 q.2 s).2 := rfl

theorem renderAll_concat (font : Font) (ps : List (Char × FontSize))
    (q : Char × FontSize) (s : GlyphCacheState) :
    renderAll font (ps ++ [q]) s =
      (renderChar font q.1 q.2 (renderAll font ps s)).2 := by
  simp [renderAll, List.foldl_append]

theorem renderAll_fresh (font : Font) :
    ∀ (ps : List (Char × FontSize)) (s : GlyphCacheState),
      (cacheKeys s ++ ps.map (fun q => cacheKey q.1 q.2)).Nodup →
      s.length + ps.length ≤ MAX_CACHE_SIZE →
      renderAll font ps s = s ++ ps.map (freshEntry font) := by
  intro ps
  induction ps with
  | nil => intro s _ _; simp [renderAll]
  | cons q ps ih =>
    intro s hnd hlen
    have hkeys : cacheKey q.1 q.2 ∉ cacheKeys s := by
      rw [List.nodup_append] at hnd
      intro hmem
      exact hnd.2.2 hmem (by simp)
    have hlt : s.length < MAX_CACHE_SIZE := by
      simp only [List.length_cons] at hlen; omega
    rw [renderAll_cons, renderChar_snd_miss hkeys hlt]
    rw [ih (s ++ [freshEntry font q])
      (by
        have : cacheKeys (s ++ [freshEntry font q]) = cacheKeys s ++ [cacheKey q.1 q.2] := by
          simp [cacheKeys, freshEntry]
        rw [this, List.append_assoc]
        simpa using hnd)
      (by simp only [List.length_append, List.length_cons] at hlen ⊢; simp; omega)]
    simp

theorem renderAll_overflow (font : Font) (q : Char × FontSize)
    (rest : List (Char × FontSize))
    (hnd : ((q :: rest).map (fun r => cacheKey r.1 r.2)).Nodup)
    (hlen : rest.length = MAX_CACHE_SIZE) :
    cacheKey q.1 q.2 ∉ cacheKeys (renderAll font (q :: rest) []) := by
  have hne : rest ≠ [] := by
    intro hr; rw [hr] at hlen; simp [MAX_CACHE_SIZE] at hlen
  have hsplit : rest.dropLast ++ [rest.getLast hne] = rest :=
    List.dropLast_append_getLast hne
  simp only [List.map_cons, List.nodup_cons] at hnd
  obtain ⟨hq_notin, hrest_nd⟩ := hnd
  -- first insert from the empty cache
  have h0 : renderAll font (q :: rest) [] = renderAll font rest [freshEntry font q] := by
    rw [renderAll_cons, renderChar_snd_miss (s := []) (by simp [cacheKeys]) (by simp [MAX_CACHE_SIZE])]
    simp
  rw [h0, ← hsplit, renderAll_concat]
  -- the first 4095 of `rest` fill the cache to exactly MAX_CACHE_SIZE
  have hrest_nd' : ((rest.dropLast ++ [rest.getLast hne]).map (fun r => cacheKey r.1 r.2)).Nodup := by
    rw [hsplit]; exact hrest_nd
  rw [List.map_append] at hrest_nd'
  have hdl_nd : (rest.dropLast.map (fun r => cacheKey r.1 r.2)).Nodup :=
    (List.nodup_append.mp hrest_nd').1
  have hlast_notin :
      cacheKey (rest.getLast hne).1 (rest.getLast hne).2 ∉
        rest.dropLast.map (fun r => cacheKey r.1 r.2) := by
    intro hmem
    exact (List.nodup_append.mp hrest_nd').2.2 hmem (by simp)
  have hdl_len : rest.dropLast.length = MAX_CACHE_SIZE - 1 := by
    rw [List.length_dropLast, hlen]
  have hfill : renderAll font rest.dropLast [freshEntry font q] =
      [freshEntry font q] ++ rest.dropLast.map (freshEntry font) := by
    apply renderAll_fresh
    · show (cacheKeys [freshEntry font q] ++ _).Nodup
      have : cacheKeys [freshEntry font q] = [cacheKey q.1 q.2] := by
        simp [cacheKeys, freshEntry]
      rw [this]
      rw [List.nodup_append]
      refine ⟨List.nodup_singleton _, hdl_nd, ?_⟩
      intro a ha hmem
      simp only [List.mem_singleton] at ha
      apply hq_notin
      rw [← hsplit, List.map_append, List.mem_append]
      exact Or.inl (ha ▸ hmem)
    · simp [hdl_len, MAX_CACHE_SIZE]
  rw [hfill]
  -- the final insert evicts the oldest entry: `freshEntry font q`
  have hstate_len :
      MAX_CACHE_SIZE ≤ ([freshEntry font q] ++ rest.dropLast.map (freshEntry font)).length := by
    have hlen4096 : rest.length = 4096 := hlen
    simp [hdl_len, MAX_CACHE_SIZE]
    omega
  have hlast_keys :
      cacheKey (rest.getLast hne).1 (rest.getLast hne).2 ∉
        cacheKeys ([freshEntry font q] ++ rest.dropLast.map (freshEntry font)) := by
    simp only [cacheKeys, List.map_append, List.mem_append, not_or]
    constructor
    · simp only [List.map_cons, List.map_nil, List.mem_singleton, freshEntry]
      intro hcontra
      apply hq_notin
      rw [← hsplit, List.map_append, List.mem_append]
      right
      simp [hcontra.symm]
    · intro hcontra
      apply hlast_notin
      simpa [freshEntry, cacheKeys, Function.comp] using hcontra
  rw [renderChar_snd_full hlast_keys hstate_len]
  -- the evicted head is exactly the first-inserted entry
  simp only [List.singleton_append, List.tail_cons, cacheKeys, List.map_append,
    List.mem_append, not_or]
  constructor
  · intro hcontra
    apply hq_notin
    rw [← hsplit, List.map_append, List.mem_append]
    left
    simpa [freshEntry, Function.comp] using hcontra
  · simp only [List.map_cons, List.map_nil, List.mem_singleton, freshEntry]
    intro hcontra
    apply hq_notin
    rw [← hsplit, List.map_append, List.mem_append]
    right
    simp [hcontra]

-- ══════════════════════════════════════════════════════════════════════
-- §12  renderChar and renderLine structure lemmas
-- ══════════════════════════════════════════════════════════════════════

theorem isCJK_control {n : Nat} (h : n ≤ 0x20) : isCJK n = false := by
  simp only [isCJK, Bool.or_eq_false_iff, Bool.and_eq_false_iff,
    decide_eq_false_iff_not, not_le]
  omega

theorem renderCharFresh_width (font : Font) (c : Char) (p : FontSize) :
    (renderCharFresh font c p).width =
      if isCJK c.toNat then p.cjkWidth else p.asciiWidth := by
  by_cases h : c = ' ' ∨ c.toNat ≤ 0x20
  · have h32 : c.toNat ≤ 0x20 := by
      rcases h with h | h
      · subst h; decide
      · exact h
    simp [renderCharFresh, h, isCJK_control h32]
  · simp [renderCharFresh, h]

theorem renderCharFresh_height (font : Font) (c : Char) (p : FontSize) :
    (renderCharFresh font c p).height = p.charHeight := by
  by_cases h : c = ' ' ∨ c.toNat ≤ 0x20
  · simp [renderCharFresh, h]
  · simp [renderCharFresh, h]

theorem renderCharFresh_control {c : Char} (font : Font) (p : FontSize)
    (h : c.toNat ≤ 0x20) :
    renderCharFresh font c p =
      ⟨p.asciiWidth, p.charHeight, List.replicate (p.asciiWidth * p.charHeight) false⟩ := by
  simp [renderCharFresh, Or.inr h]

theorem renderChars_fst {font : Font} {p : FontSize} :
    ∀ (text : List Char) (s : GlyphCacheState), ValidState font s →
      (renderChars font p text s).1 = text.map (fun c => renderCharFresh font c p) := by
  intro text
  induction text with
  | nil => intro s _; rfl
  | cons c rest ih =>
    intro s hv
    show ((renderChar font c p s).1 :: (renderChars font p rest (renderChar font c p s).2).1) = _
    rw [renderChar_fst hv, ih _ (validState_renderChar hv c p), List.map_cons]

theorem glyphBandBytes_length (bmp : GlyphBitmap) (top : Nat) :
    (glyphBandBytes bmp top).length = 3 * bmp.width := by
  rw [glyphBandBytes, List.length_flatMap]
  have hsum : ∀ l : List Nat,
      (l.map (List.length ∘ fun x =>
        [colByte bmp top x 0, colByte bmp top x 1, colByte bmp top x 2])).sum =
        3 * l.length := by
    intro l
    induction l with
    | nil => simp
    | cons a l ih =>
      simp only [List.map_cons, List.sum_cons, Function.comp_apply, List.length_cons,
        List.length_nil, ih]
      omega
  rw [hsum, List.length_range]

theorem renderLine_band_length_all (font : Font) (text : List Char) (p : FontSize)
    (s : GlyphCacheState) :
    ∀ b ∈ (renderLine font text p s).1.bands,
      b.length = 3 * (renderLine font text p s).1.width := by
  intro b hb
  rw [renderLine] at hb ⊢
  by_cases he : text.isEmpty
  · rw [if_pos he] at hb ⊢
    simp only [List.mem_singleton] at hb
    simp [hb]
  · rw [if_neg he] at hb ⊢
    simp only [List.mem_map, List.mem_range] at hb
    obtain ⟨band, _, rfl⟩ := hb
    show (List.flatMap _ _).length = _
    rw [List.length_flatMap]
    have hsum : ∀ l : List GlyphBitmap,
        (l.map (List.length ∘ fun bmp => glyphBandBytes bmp (band * CHAR_HEIGHT))).sum =
          3 * (l.map GlyphBitmap.width).sum := by
      intro l
      induction l with
      | nil => simp
      | cons bmp rest ih =>
        simp only [List.map_cons, List.sum_cons, Function.comp_apply,
          glyphBandBytes_length, ih]
        ring
    rw [hsum]

theorem renderLine_width_eq {font : Font} {s : GlyphCacheState} (hv : ValidState font s)
    (text : List Char) (p : FontSize) (htext : ¬text.isEmpty) :
    (renderLine font text p s).1.width =
      (text.map (fun c => (renderCharFresh font c p).width)).sum := by
  rw [renderLine, if_neg htext]
  show ((renderChars font p text s).1.map GlyphBitmap.width).sum = _
  rw [renderChars_fst text s hv, List.map_map]
  rfl

theorem renderLine_width_pos {font : Font} {s : GlyphCacheState} (hv : ValidState font s)
    {text : List Char} (p : FontSize) (htext : text ≠ [])
    (ha : 0 < p.asciiWidth) (hc : 0 < p.cjkWidth) :
    0 < (renderLine font text p s).1.width := by
  have hne : ¬text.isEmpty := by
    cases text with
    | nil => exact absurd rfl htext
    | cons c rest => simp
  rw [renderLine_width_eq hv text p hne]
  cases text with
  | nil => exact absurd rfl htext
  | cons c rest =>
    simp only [List.map_cons, List.sum_cons]
    have hw : 0 < (renderCharFresh font c p).width := by
      rw [renderCharFresh_width]
      split
      · exact hc
      · exact ha
    omega

theorem cmdGraphics24_ok {b : List Nat} (h3 : b.length % 3 = 0)
    (hlim : b.length / 3 ≤ 65535) :
    cmdGraphics24 b = .ok (graphicsBytes b) := by
  unfold cmdGraphics24
  rw [if_neg (not_not_intro h3)]
  show (if 65535 < b.length / 3 then _ else _) = _
  rw [if_neg (not_lt.mpr hlim)]
  rfl

theorem lineBands_ok {bs : List (List Nat)}
    (h : ∀ b ∈ bs, b.length % 3 = 0 ∧ b.length / 3 ≤ 65535) :
    lineBands bs = .ok (bs.flatMap (fun b => cmdCR ++ graphicsBytes b ++ cmdCRLF)) := by
  induction bs with
  | nil => rfl
  | cons b rest ih =>
    obtain ⟨h3, hlim⟩ := h b (List.mem_cons_self _ _)
    rw [lineBands, cmdGraphics24_ok h3 hlim,
      ih (fun b hb => h b (List.mem_cons_of_mem _ hb))]
    simp

theorem buildBody_single_nonblank {font : Font} {s : GlyphCacheState}
    (hv : ValidState font s) {text : List Char} {p : FontSize}
    (hblank : lineBlank text = false) (ha : 0 < p.asciiWidth) (hc : 0 < p.cjkWidth)
    (hlim : (renderLine font text p s).1.width ≤ 65535) :
    buildBody font [LineEntry.withFont text p] s =
      .ok ((renderLine font text p s).1.bands.flatMap
        (fun b => cmdCR ++ graphicsBytes b ++ cmdCRLF)) := by
  have htext : text ≠ [] := by
    intro h; subst h; simp [lineBlank] at hblank
  have hband : ∀ b ∈ (renderLine font text p s).1.bands,
      b.length % 3 = 0 ∧ b.length / 3 ≤ 65535 := by
    intro b hb
    have := renderLine_band_length_all font text p s b hb
    constructor
    · omega
    · rw [this, Nat.mul_div_cancel_left _ (by omega : 0 < 3)]
      exact hlim
  rw [buildBody]
  simp only [LineEntry.text, LineEntry.fontSize, hblank, Bool.false_eq_true, if_false]
  rw [if_pos (renderLine_width_pos hv p htext ha hc), lineBands_ok hband]
  simp [buildBody]

theorem build_single_nonblank {font : Font} {s : GlyphCacheState}
    (hv : ValidState font s) {text : List Char} {p : FontSize}
    (ff ip : Bool) (pl : Int)
    (hblank : lineBlank text = false) (ha : 0 < p.asciiWidth) (hc : 0 < p.cjkWidth)
    (hlim : (renderLine font text p s).1.width ≤ 65535) :
    buildEscpFromBitmapLines font ⟨[LineEntry.withFont text p], ff, ip, pl⟩ s =
      .ok ((if ip then cmdInit else []) ++ cmdLineSpacing 24 ++
        (if 0 < pl then cmdPageLength pl else []) ++
        (renderLine font text p s).1.bands.flatMap
          (fun b => cmdCR ++ graphicsBytes b ++ cmdCRLF) ++
        (if ff then cmdFF else [])) := by
  rw [buildEscpFromBitmapLines]
  rw [show (⟨[LineEntry.withFont text p], ff, ip, pl⟩ : BitmapBuildOptions).lines =
    [LineEntry.withFont text p] from rfl]
  rw [buildBody_single_nonblank hv hblank ha hc hlim]

-- ══════════════════════════════════════════════════════════════════════
-- §13  padText lemmas
-- ══════════════════════════════════════════════════════════════════════

theorem textWidth_append (a b : List Char) :
    textWidth (a ++ b) = textWidth a + textWidth b := by
  simp [textWidth]

theorem textWidth_replicate_space (n : Nat) :
    textWidth (List.replicate n ' ') = n := by
  induction n with
  | zero => rfl
  | succ n ih =>
    rw [List.replicate_succ]
    show textWidth ([' '] ++ List.replicate n ' ') = n + 1
    rw [textWidth_append, ih]
    have hsp : textWidth [' '] = 1 := by decide
    omega

theorem truncLoop_width (target : Nat) :
    ∀ (s : List Char) (current : Nat), current ≤ target →
      current + textWidth (truncLoop target s current) ≤ target := by
  intro s
  induction s with
  | nil =>
    intro current h
    simpa [truncLoop, textWidth] using h
  | cons c rest ih =>
    intro current h
    rw [truncLoop]
    by_cases hbr : target < current + textWidth [c]
    · rw [if_pos hbr]
      simpa [textWidth] using h
    · rw [if_neg hbr]
      have hrec := ih (current + textWidth [c]) (by omega)
      have hsplit : textWidth (c :: truncLoop target rest (current + textWidth [c])) =
          textWidth [c] + textWidth (truncLoop target rest (current + textWidth [c])) := by
        show textWidth ([c] ++ truncLoop target rest (current + textWidth [c])) = _
        rw [textWidth_append]
      omega

theorem truncLoop_leading (target : Nat) :
    ∀ (s : List Char) (current : Nat), truncLoop target s current <+: s := by
  intro s
  induction s with
  | nil => intro current; simp [truncLoop]
  | cons c rest ih =>
    intro current
    rw [truncLoop]
    by_cases hbr : target < current + textWidth [c]
    · rw [if_pos hbr]; exact List.nil_prefix
    · rw [if_neg hbr]
      obtain ⟨t, ht⟩ := ih (current + textWidth [c])
      exact ⟨t, by rw [List.cons_append, ht]⟩

-- ══════════════════════════════════════════════════════════════════════
-- §14  Distinctness of the FIFO witness keys
-- ══════════════════════════════════════════════════════════════════════

theorem charToNat_ofNat_lt {n : Nat} (h : n < 55296) : (Char.ofNat n).toNat = n := by
  rw [Char.ofNat, dif_pos (Or.inl h)]
  rfl

theorem fifo_witness_nodup :
    (((Char.ofNat 0x4e00, FONT_NORMAL) :: fifoRest).map
      (fun r => cacheKey r.1 r.2)).Nodup := by
  rw [List.map_cons, List.nodup_cons]
  constructor
  · intro hmem
    simp only [fifoRest, List.map_map, List.mem_map, List.mem_range,
      Function.comp_apply] at hmem
    obtain ⟨i, hi, hkey⟩ := hmem
    have hi4 : i < 4096 := hi
    have hchars := (cacheKey_inj hkey).1
    have := congrArg Char.toNat hchars
    rw [charToNat_ofNat_lt (by omega), charToNat_ofNat_lt (by omega)] at this
    omega
  · simp only [fifoRest, List.map_map]
    apply List.Nodup.map_on
    · intro i hi j hj hkey
      simp only [Function.comp_apply] at hkey
      simp only [List.mem_range] at hi hj
      have hi4 : i < 4096 := hi
      have hj4 : j < 4096 := hj
      have hchars := (cacheKey_inj hkey).1
      have := congrArg Char.toNat hchars
      rw [charToNat_ofNat_lt (by omega), charToNat_ofNat_lt (by omega)] at this
      omega
    · exact List.nodup_range _

-- ══════════════════════════════════════════════════════════════════════
-- §15  The claims
-- ══════════════════════════════════════════════════════════════════════

/-- C10: for every string, every alignment and every targetWidth ≥ 0
(natural number), the half-width-unit measure of `padText s targetWidth
align` is exactly `targetWidth`, in both the truncation branch and the
padding branch. -/
theorem padText_textWidth_exact (s : List Char) (targetWidth : Nat) (align : TextAlign) :
    textWidth (padText s targetWidth align) = targetWidth := by
  simp only [padText]
  by_cases h : targetWidth ≤ textWidth s
  · rw [if_pos h]
    have ht := truncLoop_width targetWidth s 0 (Nat.zero_le _)
    rw [textWidth_append, textWidth_replicate_space]
    omega
  · rw [if_neg h]
    cases align with
    | left => rw [textWidth_append, textWidth_replicate_space]; omega
    | right => rw [textWidth_append, textWidth_replicate_space]; omega
    | center =>
      rw [textWidth_append, textWidth_append, textWidth_replicate_space,
        textWidth_replicate_space]
      omega

/-- C2 counterexample: the claim says `padText("中ABC", 3, left)` returns
`"中 "`, but the code returns `"中A"` — after the CJK character (cost 2) the
character `A` (cost 1) still fits exactly (2 + 1 = 3 is not greater than 3),
so the truncation loop includes it. -/
theorem padText_cjk_truncation_cex :
    padText ['中', 'A', 'B', 'C'] 3 TextAlign.left ≠ ['中', ' '] := by decide

/-- C2 amended: `padText("中ABC", 3, left)` returns `"中A"` (the spec's own
general rule: truncate until adding the next character would exceed the
target); and in general the truncation branch returns a whole-character
prefix of the input whose width does not exceed the target, padded with
spaces — no character whose cost would overflow the target is included and
no CJK character is ever split. -/
theorem padText_truncation_amended :
    padText ['中', 'A', 'B', 'C'] 3 TextAlign.left = ['中', 'A'] ∧
    ∀ (s : List Char) (w : Nat) (a : TextAlign), w ≤ textWidth s →
      ∃ t, t <+: s ∧ textWidth t ≤ w ∧
        padText s w a = t ++ List.replicate (w - textWidth t) ' ' := by
  constructor
  · decide
  · intro s w a h
    refine ⟨truncLoop w s 0, truncLoop_leading w s 0, ?_, ?_⟩
    · have := truncLoop_width w s 0 (Nat.zero_le w)
      omega
    · simp only [padText]
      rw [if_pos h]

/-- C2 witness: the amended truncation property instantiated at
`padText("中ABC", 3, left)`. -/
theorem padText_truncation_amended_witness :
    3 ≤ textWidth ['中', 'A', 'B', 'C'] ∧
    ∃ t, t <+: ['中', 'A', 'B', 'C'] ∧ textWidth t ≤ 3 ∧
      padText ['中', 'A', 'B', 'C'] 3 TextAlign.left =
        t ++ List.replicate (3 - textWidth t) ' ' :=
  ⟨by decide,
    padText_truncation_amended.2 ['中', 'A', 'B', 'C'] 3 TextAlign.left (by decide)⟩

/-- C3: `cmdGraphics24 columnData` raises an error if and only if the data
length is not a multiple of 3 or the column count (length / 3) exceeds
65535; on every other input it returns the 5-byte header `ESC * 39 nL nH` —
where nL/nH is the little-endian column count (recoverable as
`nL + 256 * nH`), not the byte length — followed by the data unchanged. -/
theorem cmdGraphics24_contract (d : List Nat) :
    ((∃ e, cmdGraphics24 d = .error e) ↔ d.length % 3 ≠ 0 ∨ 65535 < d.length / 3) ∧
    (d.length % 3 = 0 → d.length / 3 ≤ 65535 →
      cmdGraphics24 d =
        .ok ([0x1b, 0x2a, 39, d.length / 3 % 256, d.length / 3 / 256 % 256] ++ d) ∧
      d.length / 3 % 256 + 256 * (d.length / 3 / 256 % 256) = d.length / 3) := by
  constructor
  · constructor
    · intro ⟨e, he⟩
      by_cases h3 : d.length % 3 = 0
      · by_cases hlim : 65535 < d.length / 3
        · exact Or.inr hlim
        · rw [cmdGraphics24_ok h3 (by omega)] at he
          cases he
      · exact Or.inl h3
    · intro h
      rcases h with h3 | hlim
      · exact ⟨"Graphics column data must be a multiple of 3 bytes, got " ++
          toString d.length, by rw [cmdGraphics24, if_pos h3]⟩
      · by_cases h3 : d.length % 3 = 0
        · refine ⟨"Graphics column count " ++ toString (d.length / 3) ++
            " exceeds 16-bit limit", ?_⟩
          rw [cmdGraphics24, if_neg (not_not_intro h3)]
          show (if 65535 < d.length / 3 then _ else _) = _
          rw [if_pos hlim]
        · exact ⟨"Graphics column data must be a multiple of 3 bytes, got " ++
            toString d.length, by rw [cmdGraphics24, if_pos h3]⟩
  · intro h3 hlim
    refine ⟨cmdGraphics24_ok h3 hlim, ?_⟩
    have : d.length / 3 ≤ 65535 := hlim
    omega

/-- C3 witness: a 4-byte buffer raises; a 6-byte buffer yields the header
with column count 2 and the data unchanged. -/
theorem cmdGraphics24_contract_witness :
    (∃ e, cmdGraphics24 [9, 9, 9, 9] = .error e) ∧
    (cmdGraphics24 [1, 2, 3, 4, 5, 6] =
      .ok ([0x1b, 0x2a, 39, [1, 2, 3, 4, 5, 6].length / 3 % 256,
        [1, 2, 3, 4, 5, 6].length / 3 / 256 % 256] ++ [1, 2, 3, 4, 5, 6]) ∧
      [1, 2, 3, 4, 5, 6].length / 3 % 256 +
        256 * ([1, 2, 3, 4, 5, 6].length / 3 / 256 % 256) = [1, 2, 3, 4, 5, 6].length / 3) :=
  ⟨(cmdGraphics24_contract [9, 9, 9, 9]).1.mpr (by decide),
    (cmdGraphics24_contract [1, 2, 3, 4, 5, 6]).2 (by decide) (by decide)⟩

/-- C8: every buffer `buildEscpFromBitmapLines` produces starts with the
optional Initialize (`ESC @`, present iff `initPrinter`), then the
unconditional line-spacing command `ESC 3 24`, then — if and only if
`pageLines > 0` — the page-length command `ESC C n` (n clamped to [1,127]),
then the body and the optional Form Feed. -/
theorem buildEscp_header_commands (font : Font) (opts : BitmapBuildOptions)
    (s : GlyphCacheState) :
    buildEscpFromBitmapLines font opts s =
      (buildBody font opts.lines s).map (fun body =>
        (if opts.initPrinter then [0x1b, 0x40] else []) ++
        [0x1b, 0x33, 24] ++
        (if 0 < opts.pageLines then
          [0x1b, 0x43, (min (max opts.pageLines 1) 127).toNat] else []) ++
        body ++ (if opts.formFeed then [0x0c] else [])) := by
  rw [buildEscpFromBitmapLines]
  cases buildBody font opts.lines s with
  | error e => rfl
  | ok body => rfl

/-- C1 counterexample: for the single non-blank entry `"A"` at profile
(1, 1, 1) the build emits, for the line's one band,
`CR, ESC * 39 1 0, <3 data bytes>, CR, LF` — the byte immediately after the
graphics payload is CR (0x0d), not LF: the claim's "then LF (1 byte), with
no other bytes between the graphics payload and the LF" is false. -/
theorem buildEscp_band_trailer_cex :
    buildEscpFromBitmapLines trivialFont
        ⟨[LineEntry.withFont ['A'] ⟨1, 1, 1⟩], true, true, 0⟩ [] =
      Except.ok [0x1b, 0x40, 0x1b, 0x33, 24,
        0x0d, 0x1b, 0x2a, 39, 1, 0, 0, 0, 0, 0x0d, 0x0a, 0x0c] ∧
    [0x1b, 0x40, 0x1b, 0x33, 24,
        0x0d, 0x1b, 0x2a, 39, 1, 0, 0, 0, 0, 0x0d, 0x0a, 0x0c] ≠
      [0x1b, 0x40, 0x1b, 0x33, 24,
        0x0d, 0x1b, 0x2a, 39, 1, 0, 0, 0, 0, 0x0a, 0x0c] :=
  ⟨by decide, by decide⟩

/-- C1 amended: for a line entry whose text is non-empty and not
whitespace-only (rendered from a reachable cache state, with positive cell
widths and the line within the 16-bit column limit), the build emits for
each of the line's bands, in top-to-bottom order, exactly: CR (1 byte), the
5-byte header `ESC * 39 nL nH`, the `3 × columnCount` data bytes, then
CR LF (2 bytes) — the code sends `cmdCRLF`, not a bare LF, after every
band's payload. -/
theorem buildEscp_band_layout (font : Font) (s : GlyphCacheState) (text : List Char)
    (p : FontSize) (ff ip : Bool) (pl : Int)
    (hs : Reachable font s) (hblank : lineBlank text = false)
    (ha : 0 < p.asciiWidth) (hc : 0 < p.cjkWidth)
    (hlim : (renderLine font text p s).1.width ≤ 65535) :
    buildEscpFromBitmapLines font ⟨[LineEntry.withFont text p], ff, ip, pl⟩ s =
      .ok ((if ip then cmdInit else []) ++ cmdLineSpacing 24 ++
        (if 0 < pl then cmdPageLength pl else []) ++
        (renderLine font text p s).1.bands.flatMap (fun b =>
          [0x0d] ++
          ([0x1b, 0x2a, 39, b.length / 3 % 256, b.length / 3 / 256 % 256] ++ b) ++
          [0x0d, 0x0a]) ++
        (if ff then cmdFF else [])) :=
  build_single_nonblank (reachable_valid hs) ff ip pl hblank ha hc hlim

/-- C1 witness: the amended per-band layout instantiated at the single line
`"A"` with profile (1, 1, 1) from the empty cache. -/
theorem buildEscp_band_layout_witness :
    Reachable trivialFont ([] : GlyphCacheState) ∧
    lineBlank ['A'] = false ∧
    0 < (⟨1, 1, 1⟩ : FontSize).asciiWidth ∧
    0 < (⟨1, 1, 1⟩ : FontSize).cjkWidth ∧
    (renderLine trivialFont ['A'] ⟨1, 1, 1⟩ []).1.width ≤ 65535 ∧
    buildEscpFromBitmapLines trivialFont
        ⟨[LineEntry.withFont ['A'] ⟨1, 1, 1⟩], true, true, 0⟩ [] =
      .ok ((if true then cmdInit else []) ++ cmdLineSpacing 24 ++
        (if (0 : Int) < 0 then cmdPageLength 0 else []) ++
        (renderLine trivialFont ['A'] ⟨1, 1, 1⟩ []).1.bands.flatMap (fun b =>
          [0x0d] ++
          ([0x1b, 0x2a, 39, b.length / 3 % 256, b.length / 3 / 256 % 256] ++ b) ++
          [0x0d, 0x0a]) ++
        (if true then cmdFF else [])) :=
  ⟨⟨[], rfl⟩, by decide, by decide, by decide, by decide,
    buildEscp_band_layout trivialFont [] ['A'] ⟨1, 1, 1⟩ true true 0
      ⟨[], rfl⟩ (by decide) (by decide) (by decide) (by decide)⟩

/-- C4: every band buffer of `renderLine text profile` has length exactly
`3 × width`, where `width` is the rendered line's total dot-column count —
for any font, text, profile and cache state (hence always a multiple
of 3). -/
theorem renderLine_band_length (font : Font) (text : List Char) (p : FontSize)
    (s : GlyphCacheState) :
    ∀ b ∈ (renderLine font text p s).1.bands,
      b.length = 3 * (renderLine font text p s).1.width :=
  renderLine_band_length_all font text p s

/-- C4 witness: the single band of `renderLine " "` at `FONT_NORMAL` is the
36-byte (= 3 × 12) zero buffer. -/
theorem renderLine_band_length_witness :
    (List.replicate 36 0 : List Nat) ∈
      (renderLine trivialFont [' '] FONT_NORMAL []).1.bands ∧
    (List.replicate 36 0 : List Nat).length =
      3 * (renderLine trivialFont [' '] FONT_NORMAL []).1.width :=
  ⟨by decide,
    renderLine_band_length trivialFont [' '] FONT_NORMAL [] (List.replicate 36 0)
      (by decide)⟩

/-- C5: after any sequence of `renderChar` and `clearGlyphCache` calls from
the initial empty cache, the glyph cache holds at most 4096 entries; and
eviction is FIFO by insertion order: rendering 4097 pairs with pairwise
distinct cache keys from the empty cache leaves the first-inserted key
absent. -/
theorem glyphCache_capacity_fifo (font : Font) :
    (∀ ops : List CacheOp, (runOps font ops []).length ≤ MAX_CACHE_SIZE) ∧
    (∀ (q : Char × FontSize) (rest : List (Char × FontSize)),
      ((q :: rest).map (fun r => cacheKey r.1 r.2)).Nodup →
      rest.length = MAX_CACHE_SIZE →
      cacheKey q.1 q.2 ∉ cacheKeys (renderAll font (q :: rest) [])) :=
  ⟨fun ops => runOps_length font ops [] (by simp),
    renderAll_overflow font⟩

/-- C5 witness: the size bound after a concrete render/clear sequence, and
the FIFO eviction for 4097 concrete distinct CJK characters (U+4E00 first,
then U+4E01..U+5E00) at `FONT_NORMAL`. -/
theorem glyphCache_capacity_fifo_witness :
    (runOps trivialFont [CacheOp.render 'A' FONT_NORMAL, CacheOp.clear] []).length ≤
      MAX_CACHE_SIZE ∧
    cacheKey (Char.ofNat 0x4e00) FONT_NORMAL ∉
      cacheKeys (renderAll trivialFont
        ((Char.ofNat 0x4e00, FONT_NORMAL) :: fifoRest) []) :=
  ⟨(glyphCache_capacity_fifo trivialFont).1 [CacheOp.render 'A' FONT_NORMAL, CacheOp.clear],
    (glyphCache_capacity_fifo trivialFont).2 (Char.ofNat 0x4e00, FONT_NORMAL) fifoRest
      fifo_witness_nodup (by simp [fifoRest])⟩

/-- C6 counterexample: `" "` is a non-empty text for which `renderLine` at
`FONT_LARGE` does return `bandCount = 2`, but `buildEscpFromBitmapLines`
emits no graphics command at all for that line (the whitespace-only text is
treated as a blank line: bare CR LF, and the output buffer contains no
`ESC *` at all), refuting "emits exactly two 24-pin graphics commands for
that line" for every non-empty text. -/
theorem renderLine_large_whitespace_cex :
    ([' '] : List Char) ≠ [] ∧
    (renderLine trivialFont [' '] FONT_LARGE []).1.bandCount = 2 ∧
    buildEscpFromBitmapLines trivialFont
        ⟨[LineEntry.withFont [' '] FONT_LARGE], true, true, 0⟩ [] =
      Except.ok [0x1b, 0x40, 0x1b, 0x33, 24, 0x0d, 0x0a, 0x0c] ∧
    ¬ ([0x1b, 0x2a] <:+: [0x1b, 0x40, 0x1b, 0x33, 24, 0x0d, 0x0a, 0x0c]) :=
  ⟨by decide, by decide, by decide, by decide⟩

/-- C6 amended: for every text at `FONT_LARGE` (charHeight = 48) that
contains at least one non-whitespace character (and fits the 16-bit column
limit), `renderLine` returns `bandCount = 2 = ⌈48 / 24⌉`, the line has
exactly two bands, and the build emits exactly one `CR + graphics + CR LF`
block per band — i.e. exactly two 24-pin graphics commands for that line. -/
theorem renderLine_large_two_graphics (font : Font) (s : GlyphCacheState)
    (text : List Char) (ff ip : Bool) (pl : Int)
    (hs : Reachable font s) (hblank : lineBlank text = false)
    (hlim : (renderLine font text FONT_LARGE s).1.width ≤ 65535) :
    (renderLine font text FONT_LARGE s).1.bandCount = 2 ∧
    (renderLine font text FONT_LARGE s).1.bands.length = 2 ∧
    buildEscpFromBitmapLines font ⟨[LineEntry.withFont text FONT_LARGE], ff, ip, pl⟩ s =
      .ok ((if ip then cmdInit else []) ++ cmdLineSpacing 24 ++
        (if 0 < pl then cmdPageLength pl else []) ++
        (renderLine font text FONT_LARGE s).1.bands.flatMap
          (fun b => cmdCR ++ graphicsBytes b ++ cmdCRLF) ++
        (if ff then cmdFF else [])) := by
  have htext : text ≠ [] := by
    intro h; subst h; simp [lineBlank] at hblank
  have hne : ¬text.isEmpty := by
    cases text with
    | nil => exact absurd rfl htext
    | cons c rest => simp
  refine ⟨?_, ?_, ?_⟩
  · rw [renderLine, if_neg hne]
    rfl
  · rw [renderLine, if_neg hne]
    show ((List.range ((FONT_LARGE.charHeight + CHAR_HEIGHT - 1) / CHAR_HEIGHT)).map _).length = 2
    rw [List.length_map, List.length_range]
    rfl
  · exact build_single_nonblank (reachable_valid hs) ff ip pl hblank
      (by decide) (by decide) hlim

/-- C6 witness: the amended statement instantiated at the single-character
line `"A"` at `FONT_LARGE` from the empty cache. -/
theorem renderLine_large_two_graphics_witness :
    Reachable trivialFont ([] : GlyphCacheState) ∧
    lineBlank ['A'] = false ∧
    (renderLine trivialFont ['A'] FONT_LARGE []).1.width ≤ 65535 ∧
    ((renderLine trivialFont ['A'] FONT_LARGE []).1.bandCount = 2 ∧
     (renderLine trivialFont ['A'] FONT_LARGE []).1.bands.length = 2 ∧
     buildEscpFromBitmapLines trivialFont
         ⟨[LineEntry.withFont ['A'] FONT_LARGE], true, true, 0⟩ [] =
       .ok ((if true then cmdInit else []) ++ cmdLineSpacing 24 ++
         (if (0 : Int) < 0 then cmdPageLength 0 else []) ++
         (renderLine trivialFont ['A'] FONT_LARGE []).1.bands.flatMap
           (fun b => cmdCR ++ graphicsBytes b ++ cmdCRLF) ++
         (if true then cmdFF else []))) :=
  ⟨⟨[], rfl⟩, by decide, by decide,
    renderLine_large_two_graphics trivialFont [] ['A'] true true 0
      ⟨[], rfl⟩ (by decide) (by decide)⟩

/-- C7: from any reachable cache state, `renderChar c p` returns a bitmap
of height `p.charHeight` whose width is `p.cjkWidth` when the code point is
CJK-classified and `p.asciiWidth` otherwise; and for a code point ≤ 0x20
the result is exactly the all-zero `asciiWidth × charHeight` bitmap (the
same value for every font — the early space/control branch never consults
the outline). -/
theorem renderChar_dimensions_spec (font : Font) (c : Char) (p : FontSize)
    (s : GlyphCacheState) (hs : Reachable font s) :
    (renderChar font c p s).1.height = p.charHeight ∧
    (renderChar font c p s).1.width =
      (if isCJK c.toNat then p.cjkWidth else p.asciiWidth) ∧
    (c.toNat ≤ 0x20 →
      (renderChar font c p s).1 =
        ⟨p.asciiWidth, p.charHeight,
          List.replicate (p.asciiWidth * p.charHeight) false⟩) := by
  rw [renderChar_fst (reachable_valid hs)]
  exact ⟨renderCharFresh_height font c p, renderCharFresh_width font c p,
    fun h => renderCharFresh_control font p h⟩

/-- C7 witness: the dimension contract instantiated at the space character
and `FONT_NORMAL` from the empty cache. -/
theorem renderChar_dimensions_spec_witness :
    Reachable trivialFont ([] : GlyphCacheState) ∧
    ((renderChar trivialFont ' ' FONT_NORMAL []).1.height = FONT_NORMAL.charHeight ∧
     (renderChar trivialFont ' ' FONT_NORMAL []).1.width =
       (if isCJK ' '.toNat then FONT_NORMAL.cjkWidth else FONT_NORMAL.asciiWidth) ∧
     (' '.toNat ≤ 0x20 →
       (renderChar trivialFont ' ' FONT_NORMAL []).1 =
         ⟨FONT_NORMAL.asciiWidth, FONT_NORMAL.charHeight,
           List.replicate (FONT_NORMAL.asciiWidth * FONT_NORMAL.charHeight) false⟩)) :=
  ⟨⟨[], rfl⟩, renderChar_dimensions_spec trivialFont ' ' FONT_NORMAL [] ⟨[], rfl⟩⟩

/-- C9: `renderChar c p` returns the same bitmap from any two reachable
cache states — in particular the same value whether the call is a cache hit
or a miss, and regardless of interleaved renders and evictions: both calls
return the freshly computed bitmap bit for bit. -/
theorem renderChar_deterministic (font : Font) (c : Char) (p : FontSize)
    (s₁ s₂ : GlyphCacheState) (h₁ : Reachable font s₁) (h₂ : Reachable font s₂) :
    (renderChar font c p s₁).1 = (renderChar font c p s₂).1 := by
  rw [renderChar_fst (reachable_valid h₁), renderChar_fst (reachable_valid h₂)]

/-- C9 witness: rendering `中` gives the same bitmap from the empty cache
and from the cache state left by a previous render of `A`. -/
theorem renderChar_deterministic_witness :
    Reachable trivialFont
      (runOps trivialFont [CacheOp.render 'A' FONT_NORMAL] []) ∧
    Reachable trivialFont ([] : GlyphCacheState) ∧
    (renderChar trivialFont '中' FONT_NORMAL
        (runOps trivialFont [CacheOp.render 'A' FONT_NORMAL] [])).1 =
      (renderChar trivialFont '中' FONT_NORMAL []).1 :=
  ⟨⟨[CacheOp.render 'A' FONT_NORMAL], rfl⟩, ⟨[], rfl⟩,
    renderChar_deterministic trivialFont '中' FONT_NORMAL _ _
      ⟨[CacheOp.render 'A' FONT_NORMAL], rfl⟩ ⟨[], rfl⟩⟩
